import Mathlib

/-!
Verification of the auction bidding engine (`internal/engine.go`,
`internal/models/bidder.go`, `internal/models/result.go`).

The Go code stores every monetary quantity twice: as a `float64` dollar
amount for display, and as an `int64` cent amount used for every
comparison and every arithmetic step of the algorithm (`GetCurrentBidCents`
etc.).  The engine's preprocessing re-derives the cent fields and from then
on the float fields are written only for display (`SyncFloatFields`,
`CurrentBid` mirror) and never read back.  This development therefore
embeds the bidders at the minor-unit (cents) level: each bidder carries the
`int64` cent fields (modelled as `Int`), and the float mirrors are omitted.
`time.Time` values are ordered by `Before` only, so entry times are
modelled as `Nat` with `<`.

Go's `sort.Slice` guarantees only that the result is sorted with respect to
the supplied `less` function; it is documented as NOT stable.  The model
uses `List.insertionSort` (a stable sort) as one concrete implementation of
that contract; every theorem below whose conclusion could depend on the
order of equal-entry-time bidders is stated for inputs where this
difference cannot matter.
-/

namespace Auction

/-- `models.Bidder`, minor-unit view: the four `int64` cent fields, the
`IsActive` flag, and the entry time (ordered by `time.Time.Before`,
modelled as `Nat`). -/
structure Bidder where
  id : String
  name : String
  startingBidCents : Int
  maxBidCents : Int
  autoIncrementCents : Int
  currentBidCents : Int
  entryTime : Nat
  isActive : Bool
deriving Repr, DecidableEq

/-- `models.NewBidder` at the minor-unit level: current bid starts at the
starting bid, the bidder is active.  (In Go the cent fields are derived
from the float parameters by `DollarsToCents`; here the minor-unit values
are the parameters.)  The entry time is a parameter standing for the
`time.Now()` stamp, which callers and the engine's preprocessing
overwrite. -/
def newBidder (id name : String) (startingBid maxBid autoIncrement : Int)
    (entryTime : Nat) : Bidder :=
  { id := id
    name := name
    startingBidCents := startingBid
    maxBidCents := maxBid
    autoIncrementCents := autoIncrement
    currentBidCents := startingBid
    entryTime := entryTime
    isActive := true }

/-- `(*Bidder).CanIncrement`: active and one more step stays within the
maximum. -/
def Bidder.canIncrement (b : Bidder) : Bool :=
  b.isActive && decide (b.currentBidCents + b.autoIncrementCents ≤ b.maxBidCents)

/-- `(*Bidder).Increment`: returns the Go boolean result together with the
updated bidder.  On success the auto-increment is added; if the result
reaches the maximum it is clamped there and the bidder is deactivated. -/
def Bidder.increment (b : Bidder) : Bool × Bidder :=
  if b.canIncrement = false then
    (false, b)
  else
    let c := b.currentBidCents + b.autoIncrementCents
    if b.maxBidCents ≤ c then
      (true, { b with currentBidCents := b.maxBidCents, isActive := false })
    else
      (true, { b with currentBidCents := c })

/-- A sequence of `n` `Increment` calls starting from `b` (the returned
boolean is discarded; a failed call leaves the bidder unchanged). -/
def iterIncrement (b : Bidder) : Nat → Bidder
  | 0 => b
  | n + 1 => (iterIncrement b n).increment.2

/-- The error taxonomy of `internal/models/errors.go` restricted to the
discriminant and message actually produced by the engine. -/
inductive EngineError where
  | processing (msg : String)
  | system (msg : String)
  | timeout (msg : String)
  | input (msg : String)
deriving Repr, DecidableEq

/-- `models.BidResult` at the minor-unit level (the float `WinningBid` is
`CentsToDollars` of `winningBidCents` and is display-only). -/
structure BidResult where
  winner : Option Bidder
  winningBidCents : Int
  totalBidders : Nat
  biddingRounds : Nat
  allBidders : List Bidder
deriving Repr, DecidableEq

/-- Loop of `findHighestBidCents` over `bidders[1:]`: running maximum with
the per-bidder negativity check. -/
def findHighestGo : Int → List Bidder → Except EngineError Int
  | h, [] => .ok h
  | h, b :: rest =>
    if b.currentBidCents < 0 then
      .error (.system "bidder has negative current bid")
    else
      findHighestGo (if h < b.currentBidCents then b.currentBidCents else h) rest

/-- `(*BiddingEngine).findHighestBidCents`. -/
def findHighestBidCents (bidders : List Bidder) : Except EngineError Int :=
  match bidders with
  | [] => .ok 0
  | b0 :: rest =>
    if b0.currentBidCents < 0 then
      .error (.system "bidder has negative current bid")
    else
      match findHighestGo b0.currentBidCents rest with
      | .error e => .error e
      | .ok h =>
        if h < 0 then .error (.system "calculated highest bid is negative")
        else .ok h

/-- The `for i := range bidders` loop of `IncrementBids`: each bidder is
skipped when already at the round-start maximum `h` or unable to
increment, and otherwise incremented once; `Increment` returning `false`
after `CanIncrement` returned `true` is the dead `SystemError` branch. -/
def incrementPassGo (h : Int) : List Bidder → Except EngineError (Bool × List Bidder)
  | [] => .ok (false, [])
  | b :: rest =>
    if decide (h ≤ b.currentBidCents) || !b.canIncrement then
      match incrementPassGo h rest with
      | .error e => .error e
      | .ok (any, rest') => .ok (any, b :: rest')
    else
      match b.increment with
      | (true, b') =>
        match incrementPassGo h rest with
        | .error e => .error e
        | .ok (_, rest') => .ok (true, b' :: rest')
      | (false, _) =>
        .error (.system "bidder increment failed despite CanIncrement returning true")

/-- `(*BiddingEngine).IncrementBids`. -/
def incrementBids (bidders : List Bidder) : Except EngineError (Bool × List Bidder) :=
  if bidders.length ≤ 1 then
    .ok (false, bidders)
  else
    match findHighestBidCents bidders with
    | .error _ => .error (.processing "failed to find highest bid")
    | .ok h => incrementPassGo h bidders

/-- The `maxRounds` field set by `NewBiddingEngine`. -/
def maxRounds : Nat := 1000

/-- The round loop of `ProcessBids`: `fuel` is `maxRounds - rounds`
(the loop guard `rounds < maxRounds`), `rounds` the counter; the loop
stops either on fuel exhaustion (then `rounds = maxRounds` and the caller
reports a timeout) or when a pass increments nobody. -/
def roundLoopGo : Nat → Nat → List Bidder → Except EngineError (Nat × List Bidder)
  | 0, rounds, bidders => .ok (rounds, bidders)
  | fuel + 1, rounds, bidders =>
    match incrementBids bidders with
    | .error _ => .error (.processing "failed to increment bids")
    | .ok (false, bidders') => .ok (rounds, bidders')
    | .ok (true, bidders') => roundLoopGo fuel (rounds + 1) bidders'

/-- Loop of `findWinner` over `bidders[1:]`: strictly higher current bid
replaces the running winner; on an exact tie the earlier entry time
replaces it; each scanned bidder is checked for a negative bid. -/
def findWinnerGo (winner : Bidder) : List Bidder → Except EngineError Bidder
  | [] => .ok winner
  | b :: rest =>
    if b.currentBidCents < 0 then
      .error (.system "bidder has negative current bid")
    else if winner.currentBidCents < b.currentBidCents then
      findWinnerGo b rest
    else if b.currentBidCents = winner.currentBidCents ∧ b.entryTime < winner.entryTime then
      findWinnerGo b rest
    else
      findWinnerGo winner rest

/-- `(*BiddingEngine).findWinner`. -/
def findWinner (bidders : List Bidder) : Except EngineError (Option Bidder) :=
  match bidders with
  | [] => .ok none
  | b0 :: rest =>
    match findWinnerGo b0 rest with
    | .error e => .error e
    | .ok w =>
      if w.currentBidCents < 0 then
        .error (.system "winner has negative current bid")
      else
        .ok (some w)

/-- The second-highest scan of `CalculateMinimumWinningBidCents`: running
maximum of `GetMaxBidCents` over the bidders whose id differs from the
winner's, started at `0`. -/
def secondHighestGo (winnerId : String) : Int → List Bidder → Int
  | acc, [] => acc
  | acc, b :: rest =>
    if b.id = winnerId then
      secondHighestGo winnerId acc rest
    else
      secondHighestGo winnerId (if acc < b.maxBidCents then b.maxBidCents else acc) rest

/-- `(*BiddingEngine).CalculateMinimumWinningBidCents` (the `winner == nil`
guard is subsumed by passing the winner by value). -/
def calculateMinimumWinningBidCents (bidders : List Bidder) (winner : Bidder) :
    Except EngineError Int :=
  if bidders.length = 0 then
    .error (.input "bidders slice cannot be empty")
  else if !(bidders.any fun b => b.id == winner.id) then
    .error (.input "winner not found in bidders slice")
  else
    let secondHighestCents := secondHighestGo winner.id 0 bidders
    if secondHighestCents = 0 then
      .ok winner.startingBidCents
    else
      let m1 := secondHighestCents + winner.autoIncrementCents
      let m2 := if winner.maxBidCents < m1 then winner.maxBidCents else m1
      let m3 := if m2 < winner.startingBidCents then winner.startingBidCents else m2
      if m3 < 0 then
        .error (.system "calculated minimum winning bid is negative")
      else
        .ok m3

/-- The preprocessing of `ProcessBids` applied to one working bidder:
`NewBidder` on the bidder's own parameters with the original entry time
restored — i.e. the current bid is reset to the starting bid and the
bidder is reactivated. -/
def reinitBidder (b : Bidder) : Bidder :=
  newBidder b.id b.name b.startingBidCents b.maxBidCents b.autoIncrementCents b.entryTime

/-- The `sort.Slice(workingBidders, ...EntryTime.Before...)` call, modelled
as a sort by entry time (see the header note on stability). -/
def sortByEntryTime (bidders : List Bidder) : List Bidder :=
  List.insertionSort (fun a b => a.entryTime ≤ b.entryTime) bidders

/-- `(*BiddingEngine).ProcessBids`. -/
def processBids (bidders : List Bidder) : Except EngineError BidResult :=
  if bidders.length = 0 then
    .ok ⟨none, 0, 0, 0, bidders⟩
  else
    let working := sortByEntryTime (bidders.map reinitBidder)
    match roundLoopGo maxRounds 0 working with
    | .error e => .error e
    | .ok (rounds, stable) =>
      if maxRounds ≤ rounds then
        .error (.timeout "bidding process exceeded maximum rounds")
      else
        match findWinner stable with
        | .error _ => .error (.processing "failed to determine winner")
        | .ok none => .ok ⟨none, 0, bidders.length, rounds, stable⟩
        | .ok (some w) =>
          match calculateMinimumWinningBidCents stable w with
          | .error _ => .error (.processing "failed to calculate minimum winning bid")
          | .ok cents => .ok ⟨some w, cents, bidders.length, rounds, stable⟩

/-! ### Basic facts about `CanIncrement` and `Increment` -/

/-- Unfolding of `CanIncrement` into its two conjuncts. -/
theorem canIncrement_iff (b : Bidder) :
    b.canIncrement = true ↔
      b.isActive = true ∧ b.currentBidCents + b.autoIncrementCents ≤ b.maxBidCents := by
  simp [Bidder.canIncrement]

/-- A failed `CanIncrement` makes `Increment` a no-op returning `false`. -/
theorem increment_of_not_can {b : Bidder} (h : b.canIncrement = false) :
    b.increment = (false, b) := by
  simp [Bidder.increment, h]

/-- `Increment` returns exactly the value of `CanIncrement`. -/
theorem increment_fst (b : Bidder) : b.increment.1 = b.canIncrement := by
  unfold Bidder.increment
  rcases h : b.canIncrement with _ | _
  · simp
  · by_cases hmax : b.maxBidCents ≤ b.currentBidCents + b.autoIncrementCents
    · simp [hmax]
    · simp [hmax]

/-- The fixed parameters (identity, starting bid, maximum, increment,
entry time) are untouched by `Increment`. -/
theorem increment_params (b : Bidder) :
    b.increment.2.id = b.id ∧ b.increment.2.name = b.name ∧
    b.increment.2.startingBidCents = b.startingBidCents ∧
    b.increment.2.maxBidCents = b.maxBidCents ∧
    b.increment.2.autoIncrementCents = b.autoIncrementCents ∧
    b.increment.2.entryTime = b.entryTime := by
  unfold Bidder.increment
  by_cases hcan : b.canIncrement = false
  · simp [hcan]
  · by_cases hmax : b.maxBidCents ≤ b.currentBidCents + b.autoIncrementCents
    · simp [hcan, hmax]
    · simp [hcan, hmax]

/-- On success, `Increment` adds exactly the auto-increment: the clamp
branch fires only when the step lands exactly on the maximum, because
`CanIncrement` already guaranteed `current + increment ≤ max`. -/
theorem increment_success_exact {b : Bidder} (h : b.increment.1 = true) :
    b.increment.2.currentBidCents = b.currentBidCents + b.autoIncrementCents := by
  have hcan : b.canIncrement = true := by rw [← increment_fst]; exact h
  have hle : b.currentBidCents + b.autoIncrementCents ≤ b.maxBidCents :=
    ((canIncrement_iff b).mp hcan).2
  unfold Bidder.increment
  rw [hcan]
  by_cases hmax : b.maxBidCents ≤ b.currentBidCents + b.autoIncrementCents
  · simp [hmax]
    omega
  · simp [hmax]

/-- The current bid never decreases under `Increment` (for a nonnegative
auto-increment). -/
theorem increment_current_mono {b : Bidder} (h : 0 ≤ b.autoIncrementCents) :
    b.currentBidCents ≤ b.increment.2.currentBidCents := by
  rcases hf : b.increment.1 with _ | _
  · rcases hcan : b.canIncrement with _ | _
    · rw [increment_of_not_can hcan]
    · rw [increment_fst] at hf; rw [hcan] at hf; cases hf
  · rw [increment_success_exact hf]; omega

/-- The current bid stays at or below the maximum under `Increment`. -/
theorem increment_current_le_max {b : Bidder} (h : b.currentBidCents ≤ b.maxBidCents) :
    b.increment.2.currentBidCents ≤ b.increment.2.maxBidCents := by
  rcases hf : b.increment.1 with _ | _
  · rcases hcan : b.canIncrement with _ | _
    · rw [increment_of_not_can hcan]; exact h
    · rw [increment_fst] at hf; rw [hcan] at hf; cases hf
  · have hcan : b.canIncrement = true := by rw [← increment_fst]; exact hf
    have hle := ((canIncrement_iff b).mp hcan).2
    rw [increment_success_exact hf, (increment_params b).2.2.2.1]
    exact hle

/-- An inactive bidder is never changed by `Increment`. -/
theorem increment_of_inactive {b : Bidder} (h : b.isActive = false) :
    b.increment = (false, b) := by
  apply increment_of_not_can
  simp [Bidder.canIncrement, h]

/-- The fixed parameters are untouched by any number of `Increment`
calls. -/
theorem iterIncrement_params (b : Bidder) (n : Nat) :
    (iterIncrement b n).id = b.id ∧ (iterIncrement b n).name = b.name ∧
    (iterIncrement b n).startingBidCents = b.startingBidCents ∧
    (iterIncrement b n).maxBidCents = b.maxBidCents ∧
    (iterIncrement b n).autoIncrementCents = b.autoIncrementCents ∧
    (iterIncrement b n).entryTime = b.entryTime := by
  induction n with
  | zero => simp [iterIncrement]
  | succ n ih =>
    obtain ⟨h1, h2, h3, h4, h5, h6⟩ := increment_params (iterIncrement b n)
    simp only [iterIncrement]
    exact ⟨h1.trans ih.1, h2.trans ih.2.1, h3.trans ih.2.2.1, h4.trans ih.2.2.2.1,
      h5.trans ih.2.2.2.2.1, h6.trans ih.2.2.2.2.2⟩

/-- The moving state of a bidder stays within its bounds under any number
of `Increment` calls, starting from `NewBidder`. -/
theorem iterIncrement_bounds (id name : String) (s m i : Int) (t : Nat) (n : Nat)
    (hsm : s ≤ m) (hi : 0 ≤ i) :
    s ≤ (iterIncrement (newBidder id name s m i t) n).currentBidCents ∧
      (iterIncrement (newBidder id name s m i t) n).currentBidCents ≤ m := by
  induction n with
  | zero => exact ⟨le_refl s, hsm⟩
  | succ n ih =>
    obtain ⟨_, _, _, hmax, hinc, _⟩ := iterIncrement_params (newBidder id name s m i t) n
    constructor
    · have := increment_current_mono (b := iterIncrement (newBidder id name s m i t) n)
        (by rw [hinc]; exact hi)
      exact le_trans ih.1 this
    · have := increment_current_le_max (b := iterIncrement (newBidder id name s m i t) n)
        (by rw [hmax]; exact ih.2)
      rw [(increment_params _).2.2.2.1, hmax] at this
      exact this

/-- C3: a bidder constructed by `NewBidder` with `startingBid ≤ maxBid` and
`autoIncrement > 0` keeps `startingBid ≤ currentBid ≤ maxBid` (in minor
units) after any sequence of `Increment` calls; the current bid never
decreases from one call to the next; and once `isActive` is false the next
`Increment` changes nothing at all. -/
theorem bidder_invariant (id name : String) (s m i : Int) (t : Nat) (n : Nat)
    (hsm : s ≤ m) (hi : 0 < i) :
    s ≤ (iterIncrement (newBidder id name s m i t) n).currentBidCents ∧
    (iterIncrement (newBidder id name s m i t) n).currentBidCents ≤ m ∧
    (iterIncrement (newBidder id name s m i t) n).currentBidCents ≤
      (iterIncrement (newBidder id name s m i t) (n + 1)).currentBidCents ∧
    ((iterIncrement (newBidder id name s m i t) n).isActive = false →
      iterIncrement (newBidder id name s m i t) (n + 1) =
        iterIncrement (newBidder id name s m i t) n) := by
  obtain ⟨hlo, hhi⟩ := iterIncrement_bounds id name s m i t n hsm (le_of_lt hi)
  obtain ⟨_, _, _, _, hinc, _⟩ := iterIncrement_params (newBidder id name s m i t) n
  refine ⟨hlo, hhi, ?_, ?_⟩
  · have := increment_current_mono (b := iterIncrement (newBidder id name s m i t) n)
      (by rw [hinc]; exact le_of_lt hi)
    simpa [iterIncrement] using this
  · intro hact
    have := increment_of_inactive hact
    simp only [iterIncrement, this]

/-- Witness for `bidder_invariant` at a concrete bidder
(start 100, max 120, step 50, two `Increment` calls). -/
theorem bidder_invariant_witness :
    (100 : Int) ≤ 120 ∧ (0 : Int) < 50 ∧
    (100 ≤ (iterIncrement (newBidder "a" "Alice" 100 120 50 0) 2).currentBidCents ∧
     (iterIncrement (newBidder "a" "Alice" 100 120 50 0) 2).currentBidCents ≤ 120 ∧
     (iterIncrement (newBidder "a" "Alice" 100 120 50 0) 2).currentBidCents ≤
       (iterIncrement (newBidder "a" "Alice" 100 120 50 0) 3).currentBidCents ∧
     ((iterIncrement (newBidder "a" "Alice" 100 120 50 0) 2).isActive = false →
       iterIncrement (newBidder "a" "Alice" 100 120 50 0) 3 =
         iterIncrement (newBidder "a" "Alice" 100 120 50 0) 2)) :=
  ⟨by decide, by decide,
    bidder_invariant "a" "Alice" 100 120 50 0 2 (by decide) (by decide)⟩

/-- C7 counterexample: no reachable bidder state admits a successful
`Increment` that raises the current bid by strictly less than one full
auto-increment step — `CanIncrement` only allows full steps inside the
maximum, so the clamp never shortens a step. -/
theorem no_partial_increment_step :
    ¬ ∃ (id name : String) (s m i : Int) (t n : Nat),
      0 < i ∧ s ≤ m ∧
      (iterIncrement (newBidder id name s m i t) n).increment.1 = true ∧
      (iterIncrement (newBidder id name s m i t) n).increment.2.currentBidCents -
        (iterIncrement (newBidder id name s m i t) n).currentBidCents < i := by
  rintro ⟨id, name, s, m, i, t, n, hi, hsm, hsucc, hlt⟩
  have hexact := increment_success_exact hsucc
  have hinc : (iterIncrement (newBidder id name s m i t) n).autoIncrementCents = i :=
    (iterIncrement_params (newBidder id name s m i t) n).2.2.2.2.1
  rw [hexact, hinc] at hlt
  omega

/-- C7 amended: every successful `Increment` on a reachable bidder state
raises the current bid by exactly one full auto-increment step (reaching
the maximum exactly deactivates the bidder but never shortens the
step). -/
theorem increment_full_step (id name : String) (s m i : Int) (t n : Nat)
    (hi : 0 < i) (hsm : s ≤ m)
    (hsucc : (iterIncrement (newBidder id name s m i t) n).increment.1 = true) :
    (iterIncrement (newBidder id name s m i t) n).increment.2.currentBidCents =
      (iterIncrement (newBidder id name s m i t) n).currentBidCents + i := by
  have hexact := increment_success_exact hsucc
  have hinc : (iterIncrement (newBidder id name s m i t) n).autoIncrementCents = i :=
    (iterIncrement_params (newBidder id name s m i t) n).2.2.2.2.1
  rw [hexact, hinc]

/-- Witness for `increment_full_step` at a concrete bidder. -/
theorem increment_full_step_witness :
    (0 : Int) < 10 ∧ (100 : Int) ≤ 200 ∧
    (iterIncrement (newBidder "a" "Alice" 100 200 10 0) 0).increment.1 = true ∧
    (iterIncrement (newBidder "a" "Alice" 100 200 10 0) 0).increment.2.currentBidCents =
      (iterIncrement (newBidder "a" "Alice" 100 200 10 0) 0).currentBidCents + 10 :=
  ⟨by decide, by decide, by decide,
    increment_full_step "a" "Alice" 100 200 10 0 0 (by decide) (by decide) (by decide)⟩

/-- C8: the empty bidder list yields a well-formed empty result (no winner,
winning bid 0, zero bidders, zero rounds, empty final list) and no
error. -/
theorem processBids_empty : processBids [] = .ok ⟨none, 0, 0, 0, []⟩ := rfl

/-! ### The highest-bid scan -/

/-- Inversion of the `findHighestGo` loop: a returned value bounds the
accumulator and every scanned bid, and is attained by the accumulator or by
some scanned bidder. -/
theorem findHighestGo_spec :
    ∀ (l : List Bidder) (acc h : Int), findHighestGo acc l = .ok h →
      acc ≤ h ∧ (h = acc ∨ ∃ b ∈ l, b.currentBidCents = h) ∧
        ∀ b ∈ l, b.currentBidCents ≤ h := by
  intro l
  induction l with
  | nil =>
    intro acc h hok
    simp only [findHighestGo] at hok
    cases hok
    exact ⟨le_refl _, Or.inl rfl, by simp⟩
  | cons b rest ih =>
    intro acc h hok
    simp only [findHighestGo] at hok
    by_cases hneg : b.currentBidCents < 0
    · rw [if_pos hneg] at hok; cases hok
    · rw [if_neg hneg] at hok
      obtain ⟨h1, h2, h3⟩ := ih _ _ hok
      by_cases hlt : acc < b.currentBidCents
      · rw [if_pos hlt] at h1 h2
        refine ⟨le_trans (le_of_lt hlt) h1, ?_, ?_⟩
        · rcases h2 with h2 | ⟨c, hc, hceq⟩
          · exact Or.inr ⟨b, by simp, h2.symm ▸ rfl⟩
          · exact Or.inr ⟨c, by simp [hc], hceq⟩
        · intro c hc
          rcases List.mem_cons.mp hc with rfl | hc
          · exact h1
          · exact h3 c hc
      · rw [if_neg hlt] at h1 h2
        refine ⟨h1, ?_, ?_⟩
        · rcases h2 with h2 | ⟨c, hc, hceq⟩
          · exact Or.inl h2
          · exact Or.inr ⟨c, by simp [hc], hceq⟩
        · intro c hc
          rcases List.mem_cons.mp hc with rfl | hc
          · exact le_trans (le_of_not_lt hlt) h1
          · exact h3 c hc

/-- `findHighestGo` succeeds on nonnegative current bids. -/
theorem findHighestGo_isOk :
    ∀ (l : List Bidder) (acc : Int), (∀ b ∈ l, 0 ≤ b.currentBidCents) →
      ∃ h, findHighestGo acc l = .ok h ∧ acc ≤ h := by
  intro l
  induction l with
  | nil => exact fun acc _ => ⟨acc, rfl, le_refl _⟩
  | cons b rest ih =>
    intro acc hnn
    have hb : ¬ b.currentBidCents < 0 := not_lt.mpr (hnn b (by simp))
    obtain ⟨h, hok, hle⟩ := ih (if acc < b.currentBidCents then b.currentBidCents else acc)
      (fun c hc => hnn c (by simp [hc]))
    refine ⟨h, ?_, ?_⟩
    · simp only [findHighestGo, if_neg hb]
      exact hok
    · by_cases hlt : acc < b.currentBidCents
      · rw [if_pos hlt] at hle; exact le_trans (le_of_lt hlt) hle
      · rw [if_neg hlt] at hle; exact hle

/-- Inversion of `findHighestBidCents` on a nonempty list: the returned
value is the maximum of the current bids. -/
theorem findHighestBidCents_spec {bs : List Bidder} {H : Int} (hne : bs ≠ [])
    (hok : findHighestBidCents bs = .ok H) :
    (∀ b ∈ bs, b.currentBidCents ≤ H) ∧ ∃ b ∈ bs, b.currentBidCents = H := by
  match bs, hne with
  | b0 :: rest, _ =>
    simp only [findHighestBidCents] at hok
    by_cases hneg : b0.currentBidCents < 0
    · rw [if_pos hneg] at hok; cases hok
    · rw [if_neg hneg] at hok
      rcases hgo : findHighestGo b0.currentBidCents rest with e | h
      · rw [hgo] at hok; cases hok
      · rw [hgo] at hok
        dsimp only at hok
        by_cases hneg2 : h < 0
        · rw [if_pos hneg2] at hok; cases hok
        · rw [if_neg hneg2] at hok
          cases hok
          obtain ⟨h1, h2, h3⟩ := findHighestGo_spec rest b0.currentBidCents H hgo
          refine ⟨?_, ?_⟩
          · intro c hc
            rcases List.mem_cons.mp hc with rfl | hc
            · exact h1
            · exact h3 c hc
          · rcases h2 with h2 | ⟨c, hc, hceq⟩
            · exact ⟨b0, by simp, h2.symm⟩
            · exact ⟨c, by simp [hc], hceq⟩

/-- `findHighestBidCents` succeeds on nonnegative current bids. -/
theorem findHighestBidCents_isOk {bs : List Bidder}
    (hnn : ∀ b ∈ bs, 0 ≤ b.currentBidCents) :
    ∃ H, findHighestBidCents bs = .ok H ∧ 0 ≤ H := by
  match bs with
  | [] => exact ⟨0, rfl, le_refl 0⟩
  | b0 :: rest =>
    have hb : ¬ b0.currentBidCents < 0 := not_lt.mpr (hnn b0 (by simp))
    obtain ⟨h, hok, hle⟩ := findHighestGo_isOk rest b0.currentBidCents
      (fun c hc => hnn c (by simp [hc]))
    have hnn0 : (0 : Int) ≤ h := le_trans (hnn b0 (by simp)) hle
    refine ⟨h, ?_, hnn0⟩
    simp only [findHighestBidCents, if_neg hb, hok, if_neg (not_lt.mpr hnn0)]

/-! ### One pass of `IncrementBids` -/

/-- The per-pass loop is an independent per-element update against the
fixed round-start maximum `h`: every bidder strictly below `h` that can
increment is incremented once, every other bidder is untouched, and the
`anyIncremented` flag records whether any bidder matched. -/
theorem incrementPassGo_ok (h : Int) :
    ∀ l : List Bidder,
      incrementPassGo h l =
        .ok (l.any (fun b => !decide (h ≤ b.currentBidCents) && b.canIncrement),
             l.map (fun b =>
               if !decide (h ≤ b.currentBidCents) && b.canIncrement then
                 b.increment.2
               else b)) := by
  intro l
  induction l with
  | nil => rfl
  | cons b rest ih =>
    simp only [incrementPassGo]
    by_cases hskip : (decide (h ≤ b.currentBidCents) || !b.canIncrement) = true
    · rw [if_pos hskip, ih]
      have hcond : (!decide (h ≤ b.currentBidCents) && b.canIncrement) = false := by
        rcases hd : decide (h ≤ b.currentBidCents) with _ | _ <;>
          rcases hc : b.canIncrement with _ | _ <;> simp_all
      have hnc : ¬ (b.currentBidCents < h ∧ b.canIncrement = true) := by
        rintro ⟨hlt, hcan⟩
        rw [hcan] at hcond
        simp at hcond
        exact absurd hcond (not_le.mpr hlt)
      simp [hcond, hnc]
    · have hcond : (!decide (h ≤ b.currentBidCents) && b.canIncrement) = true := by
        rcases hd : decide (h ≤ b.currentBidCents) with _ | _ <;>
          rcases hc : b.canIncrement with _ | _ <;> simp_all
      have hcan : b.canIncrement = true := (Bool.and_eq_true_iff.mp hcond).2
      have hfst : b.increment.1 = true := by rw [increment_fst]; exact hcan
      have heta : b.increment = (true, b.increment.2) := by
        rw [← hfst]
      have hc : b.currentBidCents < h ∧ b.canIncrement = true := by
        refine ⟨?_, hcan⟩
        rcases hd : decide (h ≤ b.currentBidCents) with _ | _
        · exact lt_of_not_le (of_decide_eq_false hd)
        · rw [hd, hcan] at hcond; simp at hcond
      rw [if_neg hskip, heta, ih]
      simp [hcond, hc]

/-- C2: in a pass of the round loop over at least two bidders whose
highest-bid scan yields `H` (the round-start maximum of the current bids),
exactly the bidders strictly below `H` that can increment receive one
`Increment` call; a bidder at `H` is untouched even if able; and the
comparison value `H` is the same for every bidder of the pass. -/
theorem incrementBids_pass (bs : List Bidder) (H : Int)
    (hlen : 2 ≤ bs.length)
    (hH : findHighestBidCents bs = .ok H) :
    (∀ b ∈ bs, b.currentBidCents ≤ H) ∧ (∃ b ∈ bs, b.currentBidCents = H) ∧
    incrementBids bs =
      .ok (bs.any (fun b => !decide (H ≤ b.currentBidCents) && b.canIncrement),
           bs.map (fun b =>
             if !decide (H ≤ b.currentBidCents) && b.canIncrement then
               b.increment.2
             else b)) := by
  have hne : bs ≠ [] := by
    intro hempty
    rw [hempty] at hlen
    simp at hlen
  obtain ⟨hmax, hatt⟩ := findHighestBidCents_spec hne hH
  refine ⟨hmax, hatt, ?_⟩
  have hnotshort : ¬ bs.length ≤ 1 := by omega
  simp only [incrementBids, if_neg hnotshort, hH]
  exact incrementPassGo_ok H bs

/-- Concrete bidder used by the `incrementBids_pass` witness: strictly
below the round maximum and able to increment. -/
def wX : Bidder :=
  ⟨"x", "Xenia", 100, 300, 25, 100, 0, true⟩

/-- Concrete bidder used by the `incrementBids_pass` witness: holder of
the round maximum. -/
def wY : Bidder :=
  ⟨"y", "Yuri", 110, 250, 20, 110, 1, true⟩

/-- Witness for `incrementBids_pass` on a concrete two-bidder pass with
round maximum 110. -/
theorem incrementBids_pass_witness :
    2 ≤ ([wX, wY] : List Bidder).length ∧
    findHighestBidCents [wX, wY] = .ok 110 ∧
    ((∀ b ∈ [wX, wY], b.currentBidCents ≤ 110) ∧
     (∃ b ∈ [wX, wY], b.currentBidCents = 110) ∧
     incrementBids [wX, wY] =
       .ok (([wX, wY] : List Bidder).any
              (fun b => !decide ((110 : Int) ≤ b.currentBidCents) && b.canIncrement),
            ([wX, wY] : List Bidder).map
              (fun b =>
                if !decide ((110 : Int) ≤ b.currentBidCents) && b.canIncrement then
                  b.increment.2
                else b))) :=
  ⟨by decide, rfl, incrementBids_pass [wX, wY] 110 (by decide) rfl⟩

/-! ### The round loop -/

/-- A round whose pass increments nobody ends the loop at the current
counter value. -/
theorem roundLoopGo_stable {fuel rounds : Nat} {bs bs' : List Bidder}
    (hfuel : fuel ≠ 0) (h : incrementBids bs = .ok (false, bs')) :
    roundLoopGo fuel rounds bs = .ok (rounds, bs') := by
  match fuel, hfuel with
  | f + 1, _ => simp [roundLoopGo, h]

/-! ### C5: the two-bidder tie scenario -/

/-- Concrete tie bidder A: identical parameters to `cB5`, earlier entry.
The mutable fields are deliberately stale — the engine's preprocessing
re-derives them. -/
def cA5 : Bidder :=
  ⟨"a", "Alice", 10000, 20000, 1000, 0, 0, false⟩

/-- Concrete tie bidder B: identical parameters to `cA5`, later entry. -/
def cB5 : Bidder :=
  ⟨"b", "Bob", 10000, 20000, 1000, 0, 1, false⟩

/-- C5 counterexample: two bidders with identical starting bid 10000,
maximum 20000 and increment 1000 (minor units), A entering first.
`ProcessBids` declares A the winner after zero increment rounds, but the
winning bid is 20000 — A's maximum — not A's starting bid 10000 as the
claim states. -/
theorem tie_counterexample :
    (processBids [cA5, cB5]).map
        (fun r => (r.winner.map Bidder.id, r.biddingRounds, r.winningBidCents)) =
      .ok (some "a", 0, 20000) ∧
    cA5.startingBidCents = 10000 ∧ ((20000 : Int) = 10000 → False) := by
  exact ⟨rfl, rfl, by decide⟩

/-- C5 amended: for two bidders with identical (valid) parameters where A
enters strictly earlier, `ProcessBids` declares A the winner, performs no
increment rounds, and the winning bid equals A's MAXIMUM bid (the
second-highest ceiling plus one increment, clamped to A's maximum); it
equals A's starting bid only in the degenerate case `startingBid =
maxBid`. -/
theorem tie_earliest_wins_pays_max (A B : Bidder)
    (hid : A.id ≠ B.id)
    (hs : A.startingBidCents = B.startingBidCents)
    (hm : A.maxBidCents = B.maxBidCents)
    (hi : A.autoIncrementCents = B.autoIncrementCents)
    (ht : A.entryTime < B.entryTime)
    (hpos : 0 < A.startingBidCents)
    (hposi : 0 < A.autoIncrementCents)
    (hsm : A.startingBidCents ≤ A.maxBidCents) :
    ∃ r, processBids [A, B] = .ok r ∧
      r.winner.map Bidder.id = some A.id ∧
      r.biddingRounds = 0 ∧
      r.winningBidCents = A.maxBidCents := by
  have hsort : sortByEntryTime ([A, B].map reinitBidder) =
      [reinitBidder A, reinitBidder B] := by
    simp [sortByEntryTime, List.insertionSort, List.orderedInsert, reinitBidder, newBidder,
      le_of_lt ht]
  have hcurA : (reinitBidder A).currentBidCents = A.startingBidCents := rfl
  have hcurB : (reinitBidder B).currentBidCents = B.startingBidCents := rfl
  have hH : findHighestBidCents [reinitBidder A, reinitBidder B] =
      .ok A.startingBidCents := by
    simp only [findHighestBidCents, findHighestGo, hcurA, hcurB, ← hs]
    rw [if_neg (not_lt.mpr (le_of_lt hpos)), if_neg (lt_irrefl _)]
    simp [if_neg (not_lt.mpr (le_of_lt hpos))]
  have hstable : incrementBids [reinitBidder A, reinitBidder B] =
      .ok (false, [reinitBidder A, reinitBidder B]) := by
    obtain ⟨-, -, hrun⟩ := incrementBids_pass [reinitBidder A, reinitBidder B]
      A.startingBidCents (by simp) hH
    rw [hrun]
    have hA : (!decide (A.startingBidCents ≤ (reinitBidder A).currentBidCents) &&
        (reinitBidder A).canIncrement) = false := by
      rw [hcurA]
      simp
    have hB : (!decide (A.startingBidCents ≤ (reinitBidder B).currentBidCents) &&
        (reinitBidder B).canIncrement) = false := by
      rw [hcurB, ← hs]
      simp
    simp only [List.any_cons, List.any_nil, List.map_cons, List.map_nil, hA, hB,
      Bool.or_false, Bool.false_eq_true, if_false]
  have hloop : roundLoopGo maxRounds 0 [reinitBidder A, reinitBidder B] =
      .ok (0, [reinitBidder A, reinitBidder B]) :=
    roundLoopGo_stable (by decide) hstable
  have hEA : (reinitBidder A).entryTime = A.entryTime := rfl
  have hEB : (reinitBidder B).entryTime = B.entryTime := rfl
  have hgo : findWinnerGo (reinitBidder A) [reinitBidder B] = .ok (reinitBidder A) := by
    simp only [findWinnerGo, hcurA, hcurB, ← hs, hEA, hEB]
    rw [if_neg (not_lt.mpr (le_of_lt hpos)), if_neg (lt_irrefl _)]
    rw [if_neg (by rintro ⟨-, hlt⟩; exact absurd hlt (not_lt.mpr (le_of_lt ht)))]
  have hwin : findWinner [reinitBidder A, reinitBidder B] = .ok (some (reinitBidder A)) := by
    simp only [findWinner, hgo]
    rw [hcurA, if_neg (not_lt.mpr (le_of_lt hpos))]
  have hidA : (reinitBidder A).id = A.id := rfl
  have hidB : (reinitBidder B).id = B.id := rfl
  have hcalc : calculateMinimumWinningBidCents [reinitBidder A, reinitBidder B]
      (reinitBidder A) = .ok A.maxBidCents := by
    have hmpos : 0 < A.maxBidCents := lt_of_lt_of_le hpos hsm
    have hmaxA : (reinitBidder A).maxBidCents = A.maxBidCents := rfl
    have hmaxB : (reinitBidder B).maxBidCents = B.maxBidCents := rfl
    have hincA : (reinitBidder A).autoIncrementCents = A.autoIncrementCents := rfl
    have hstartA : (reinitBidder A).startingBidCents = A.startingBidCents := rfl
    have hsecond : secondHighestGo A.id 0 [reinitBidder A, reinitBidder B] =
        A.maxBidCents := by
      simp only [secondHighestGo, hidA, hidB, hmaxB, ← hm]
      rw [if_true, if_neg (Ne.symm hid), if_pos hmpos]
    simp only [calculateMinimumWinningBidCents, hidA, hidB, hmaxA, hincA, hstartA, hsecond]
    rw [if_neg (by simp)]
    rw [if_neg (by simp [hidA])]
    rw [if_neg (by omega)]
    rw [if_pos (show A.maxBidCents < A.maxBidCents + A.autoIncrementCents by omega)]
    rw [if_neg (show ¬ A.maxBidCents < A.startingBidCents by omega)]
    rw [if_neg (show ¬ A.maxBidCents < (0 : Int) by omega)]
  refine ⟨⟨some (reinitBidder A), A.maxBidCents, 2, 0, [reinitBidder A, reinitBidder B]⟩,
    ?_, by simp [hidA], rfl, rfl⟩
  simp only [processBids]
  rw [if_neg (by simp)]
  simp only [hsort, hloop]
  rw [if_neg (by decide)]
  simp only [hwin, hcalc]
  rfl

/-- Witness for `tie_earliest_wins_pays_max` at the concrete tie pair
`cA5`, `cB5`. -/
theorem tie_earliest_wins_pays_max_witness :
    cA5.id ≠ cB5.id ∧
    cA5.startingBidCents = cB5.startingBidCents ∧
    cA5.maxBidCents = cB5.maxBidCents ∧
    cA5.autoIncrementCents = cB5.autoIncrementCents ∧
    cA5.entryTime < cB5.entryTime ∧
    0 < cA5.startingBidCents ∧ 0 < cA5.autoIncrementCents ∧
    cA5.startingBidCents ≤ cA5.maxBidCents ∧
    ∃ r, processBids [cA5, cB5] = .ok r ∧
      r.winner.map Bidder.id = some cA5.id ∧
      r.biddingRounds = 0 ∧
      r.winningBidCents = cA5.maxBidCents :=
  ⟨by decide, rfl, rfl, rfl, by decide, by decide, by decide, by decide,
    tie_earliest_wins_pays_max cA5 cB5 (by decide) rfl rfl rfl (by decide)
      (by decide) (by decide) (by decide)⟩

/-! ### Termination of the round loop: a potential argument -/

/-- Validity of a working bidder state: positive starting bid and
increment, current bid nonnegative and within the maximum.  This holds for
every state the round loop reaches from a structurally valid input. -/
def ValidState (bs : List Bidder) : Prop :=
  ∀ b ∈ bs, 0 < b.startingBidCents ∧ 0 < b.autoIncrementCents ∧
    0 ≤ b.currentBidCents ∧ b.currentBidCents ≤ b.maxBidCents

/-- Number of full increment steps a bidder can still take (each
successful `Increment` is a full step, so this drops by exactly one per
increment). -/
def stepsLeft (b : Bidder) : Nat :=
  (b.maxBidCents - b.currentBidCents).toNat / b.autoIncrementCents.toNat

/-- Total remaining increment steps of a working state — the loop
potential. -/
def potential (bs : List Bidder) : Nat :=
  (bs.map stepsLeft).sum

/-- The parameters of a bidder relevant to the payment formula: identity,
starting bid, maximum, auto-increment (all invariant across rounds). -/
def paramTuple (b : Bidder) : String × Int × Int × Int :=
  (b.id, b.startingBidCents, b.maxBidCents, b.autoIncrementCents)

/-- A successful `Increment` consumes exactly one remaining step. -/
theorem increment_stepsLeft {b : Bidder} (hpos : 0 < b.autoIncrementCents)
    (hsucc : b.increment.1 = true) :
    stepsLeft b.increment.2 + 1 = stepsLeft b := by
  have hcan : b.canIncrement = true := by rw [← increment_fst]; exact hsucc
  have hle : b.currentBidCents + b.autoIncrementCents ≤ b.maxBidCents :=
    ((canIncrement_iff b).mp hcan).2
  have hcur := increment_success_exact hsucc
  have hmax := (increment_params b).2.2.2.1
  have hinc := (increment_params b).2.2.2.2.1
  unfold stepsLeft
  rw [hcur, hmax, hinc]
  have h1 : (b.maxBidCents - (b.currentBidCents + b.autoIncrementCents)).toNat =
      (b.maxBidCents - b.currentBidCents).toNat - b.autoIncrementCents.toNat := by omega
  have hIle : b.autoIncrementCents.toNat ≤ (b.maxBidCents - b.currentBidCents).toNat := by
    omega
  have hIpos : 0 < b.autoIncrementCents.toNat := by omega
  rw [h1]
  calc ((b.maxBidCents - b.currentBidCents).toNat - b.autoIncrementCents.toNat) /
        b.autoIncrementCents.toNat + 1
      = (((b.maxBidCents - b.currentBidCents).toNat - b.autoIncrementCents.toNat) +
          b.autoIncrementCents.toNat) / b.autoIncrementCents.toNat :=
        (Nat.add_div_right _ hIpos).symm
    _ = (b.maxBidCents - b.currentBidCents).toNat / b.autoIncrementCents.toNat := by
        rw [Nat.sub_add_cancel hIle]

/-- Pointwise sum comparison for mapped lists. -/
theorem sum_map_le_sum_map {α : Type} (f g : α → Nat) :
    ∀ l : List α, (∀ b ∈ l, f b ≤ g b) → (l.map f).sum ≤ (l.map g).sum := by
  intro l
  induction l with
  | nil => intro _; exact le_refl 0
  | cons b rest ih =>
    intro h
    simp only [List.map_cons, List.sum_cons]
    exact Nat.add_le_add (h b (by simp)) (ih (fun c hc => h c (by simp [hc])))

/-- Strict pointwise sum comparison when some member is strictly
smaller. -/
theorem sum_map_lt_sum_map {α : Type} (f g : α → Nat) :
    ∀ l : List α, (∀ b ∈ l, f b ≤ g b) → (∃ b ∈ l, f b < g b) →
      (l.map f).sum < (l.map g).sum := by
  intro l
  induction l with
  | nil => rintro _ ⟨b, hb, -⟩; cases hb
  | cons b rest ih =>
    rintro h ⟨c, hc, hlt⟩
    simp only [List.map_cons, List.sum_cons]
    rcases List.mem_cons.mp hc with rfl | hc
    · exact Nat.add_lt_add_of_lt_of_le hlt
        (sum_map_le_sum_map f g rest (fun d hd => h d (by simp [hd])))
    · exact Nat.add_lt_add_of_le_of_lt (h b (by simp))
        (ih (fun d hd => h d (by simp [hd])) ⟨c, hc, hlt⟩)

/-- One `IncrementBids` call on a valid state always succeeds, preserves
validity and the bidder parameters, never raises the potential, and
strictly lowers it whenever it reports an increment. -/
theorem incrementBids_ok_of_valid {bs : List Bidder} (hv : ValidState bs) :
    ∃ any bs', incrementBids bs = .ok (any, bs') ∧ ValidState bs' ∧
      bs'.map paramTuple = bs.map paramTuple ∧
      potential bs' ≤ potential bs ∧
      (any = true → potential bs' < potential bs) := by
  by_cases hshort : bs.length ≤ 1
  · refine ⟨false, bs, ?_, hv, rfl, le_refl _, by simp⟩
    simp [incrementBids, hshort]
  · have hnn : ∀ b ∈ bs, 0 ≤ b.currentBidCents := fun b hb => (hv b hb).2.2.1
    obtain ⟨H, hH, -⟩ := findHighestBidCents_isOk hnn
    refine ⟨bs.any (fun b => !decide (H ≤ b.currentBidCents) && b.canIncrement),
      bs.map (fun b =>
        if !decide (H ≤ b.currentBidCents) && b.canIncrement then b.increment.2 else b),
      ?_, ?_, ?_, ?_, ?_⟩
    · simp only [incrementBids, if_neg hshort, hH]
      exact incrementPassGo_ok H bs
    · intro b' hb'
      simp only [List.mem_map] at hb'
      obtain ⟨b, hb, rfl⟩ := hb'
      obtain ⟨h1, h2, h3, h4⟩ := hv b hb
      by_cases hcond : (!decide (H ≤ b.currentBidCents) && b.canIncrement) = true
      · rw [if_pos hcond]
        have hcan : b.canIncrement = true := (Bool.and_eq_true_iff.mp hcond).2
        have hsucc : b.increment.1 = true := by rw [increment_fst]; exact hcan
        obtain ⟨-, -, hst, hmx, hic, -⟩ := increment_params b
        refine ⟨hst ▸ h1, hic ▸ h2, ?_, ?_⟩
        · rw [increment_success_exact hsucc]; omega
        · exact increment_current_le_max h4
      · rw [if_neg hcond]
        exact ⟨h1, h2, h3, h4⟩
    · rw [List.map_map]
      refine List.map_congr_left ?_
      intro b hb
      by_cases hcond : (!decide (H ≤ b.currentBidCents) && b.canIncrement) = true
      · simp only [Function.comp_apply, if_pos hcond]
        obtain ⟨hid, -, hst, hmx, hic, -⟩ := increment_params b
        simp [paramTuple, hid, hst, hmx, hic]
      · simp only [Function.comp_apply, if_neg hcond]
    · unfold potential
      rw [List.map_map]
      refine sum_map_le_sum_map _ _ bs ?_
      intro b hb
      obtain ⟨-, h2, -, -⟩ := hv b hb
      by_cases hcond : (!decide (H ≤ b.currentBidCents) && b.canIncrement) = true
      · simp only [Function.comp_apply, if_pos hcond]
        have hcan : b.canIncrement = true := (Bool.and_eq_true_iff.mp hcond).2
        have hsucc : b.increment.1 = true := by rw [increment_fst]; exact hcan
        have := increment_stepsLeft h2 hsucc
        omega
      · simp only [Function.comp_apply, if_neg hcond]
        exact le_refl _
    · intro hany
      unfold potential
      rw [List.map_map]
      obtain ⟨c, hc, hcond⟩ := List.any_eq_true.mp hany
      refine sum_map_lt_sum_map _ _ bs ?_ ⟨c, hc, ?_⟩
      · intro b hb
        obtain ⟨-, h2, -, -⟩ := hv b hb
        by_cases hcond2 : (!decide (H ≤ b.currentBidCents) && b.canIncrement) = true
        · simp only [Function.comp_apply, if_pos hcond2]
          have hcan : b.canIncrement = true := (Bool.and_eq_true_iff.mp hcond2).2
          have hsucc : b.increment.1 = true := by rw [increment_fst]; exact hcan
          have := increment_stepsLeft h2 hsucc
          omega
        · simp only [Function.comp_apply, if_neg hcond2]
          exact le_refl _
      · obtain ⟨-, h2, -, -⟩ := hv c hc
        simp only [Function.comp_apply, if_pos hcond]
        have hcan : c.canIncrement = true := (Bool.and_eq_true_iff.mp hcond).2
        have hsucc : c.increment.1 = true := by rw [increment_fst]; exact hcan
        have := increment_stepsLeft h2 hsucc
        omega

/-- The round loop on a valid state whose potential fits in the remaining
fuel terminates successfully, adding at most `potential bs` rounds, and
preserves validity and the bidder parameters. -/
theorem roundLoopGo_bounded :
    ∀ (fuel rounds : Nat) (bs : List Bidder), ValidState bs → potential bs ≤ fuel →
      ∃ rounds' bs', roundLoopGo fuel rounds bs = .ok (rounds', bs') ∧
        rounds' ≤ rounds + potential bs ∧ ValidState bs' ∧
        bs'.map paramTuple = bs.map paramTuple := by
  intro fuel
  induction fuel with
  | zero =>
    intro rounds bs hv hpot
    exact ⟨rounds, bs, rfl, by omega, hv, rfl⟩
  | succ fuel ih =>
    intro rounds bs hv hpot
    obtain ⟨any, bs', hinc, hv', hparam, hle, hlt⟩ := incrementBids_ok_of_valid hv
    rcases hany : any with _ | _
    · rw [hany] at hinc
      exact ⟨rounds, bs', by simp [roundLoopGo, hinc], by omega, hv', hparam⟩
    · rw [hany] at hinc
      have hstrict := hlt hany
      obtain ⟨rounds', bs'', hrun, hbound, hv'', hparam'⟩ :=
        ih (rounds + 1) bs' hv' (by omega)
      refine ⟨rounds', bs'', by simp [roundLoopGo, hinc, hrun], by omega, hv'',
        hparam'.trans hparam⟩

/-- The `findWinnerGo` scan succeeds when every current bid (including the
running winner's) is nonnegative, and returns the running winner or a list
member. -/
theorem findWinnerGo_isOk :
    ∀ (l : List Bidder) (acc : Bidder), (∀ b ∈ l, 0 ≤ b.currentBidCents) →
      ∃ w, findWinnerGo acc l = .ok w ∧ (w = acc ∨ w ∈ l) := by
  intro l
  induction l with
  | nil => exact fun acc _ => ⟨acc, rfl, Or.inl rfl⟩
  | cons b rest ih =>
    intro acc hnn
    have hb : ¬ b.currentBidCents < 0 := not_lt.mpr (hnn b (by simp))
    have hrest : ∀ c ∈ rest, 0 ≤ c.currentBidCents := fun c hc => hnn c (by simp [hc])
    by_cases h1 : acc.currentBidCents < b.currentBidCents
    · obtain ⟨w, hok, hw⟩ := ih b hrest
      refine ⟨w, ?_, ?_⟩
      · simp only [findWinnerGo, if_neg hb, if_pos h1]
        exact hok
      · rcases hw with rfl | hw
        · exact Or.inr (by simp)
        · exact Or.inr (by simp [hw])
    · by_cases h2 : b.currentBidCents = acc.currentBidCents ∧ b.entryTime < acc.entryTime
      · obtain ⟨w, hok, hw⟩ := ih b hrest
        refine ⟨w, ?_, ?_⟩
        · simp only [findWinnerGo, if_neg hb, if_neg h1, if_pos h2]
          exact hok
        · rcases hw with rfl | hw
          · exact Or.inr (by simp)
          · exact Or.inr (by simp [hw])
      · obtain ⟨w, hok, hw⟩ := ih acc hrest
        refine ⟨w, ?_, ?_⟩
        · simp only [findWinnerGo, if_neg hb, if_neg h1, if_neg h2]
          exact hok
        · rcases hw with rfl | hw
          · exact Or.inl rfl
          · exact Or.inr (by simp [hw])

/-- `findWinner` on a nonempty list of nonnegative current bids yields a
winner belonging to the list. -/
theorem findWinner_isOk {bs : List Bidder} (hne : bs ≠ [])
    (hnn : ∀ b ∈ bs, 0 ≤ b.currentBidCents) :
    ∃ w, findWinner bs = .ok (some w) ∧ w ∈ bs := by
  match bs, hne with
  | b0 :: rest, _ =>
    obtain ⟨w, hok, hw⟩ := findWinnerGo_isOk rest b0
      (fun c hc => hnn c (by simp [hc]))
    have hwmem : w ∈ b0 :: rest := by
      rcases hw with rfl | hw
      · simp
      · simp [hw]
    have hwn : ¬ w.currentBidCents < 0 := not_lt.mpr (hnn w hwmem)
    refine ⟨w, ?_, hwmem⟩
    simp only [findWinner, hok, if_neg hwn]

/-- `CalculateMinimumWinningBidCents` succeeds when the winner belongs to
the list and has a positive starting bid. -/
theorem calculateMinimumWinningBid_isOk {bs : List Bidder} {w : Bidder}
    (hmem : w ∈ bs) (hpos : 0 < w.startingBidCents) :
    ∃ v, calculateMinimumWinningBidCents bs w = .ok v := by
  have hne : ¬ bs.length = 0 := by
    intro h
    rw [List.length_eq_zero] at h
    rw [h] at hmem
    cases hmem
  have hany : (bs.any fun b => b.id == w.id) = true :=
    List.any_eq_true.mpr ⟨w, hmem, by simp⟩
  simp only [calculateMinimumWinningBidCents, if_neg hne, hany, Bool.not_true,
    Bool.false_eq_true, if_false]
  by_cases hzero : secondHighestGo w.id 0 bs = 0
  · exact ⟨w.startingBidCents, by rw [if_pos hzero]⟩
  · rw [if_neg hzero]
    by_cases hcap : w.maxBidCents < secondHighestGo w.id 0 bs + w.autoIncrementCents
    · rw [if_pos hcap]
      by_cases hfloor : w.maxBidCents < w.startingBidCents
      · rw [if_pos hfloor, if_neg (by omega)]
        exact ⟨w.startingBidCents, rfl⟩
      · rw [if_neg hfloor, if_neg (by omega)]
        exact ⟨w.maxBidCents, rfl⟩
    · rw [if_neg hcap]
      by_cases hfloor : secondHighestGo w.id 0 bs + w.autoIncrementCents < w.startingBidCents
      · rw [if_pos hfloor, if_neg (by omega)]
        exact ⟨w.startingBidCents, rfl⟩
      · rw [if_neg hfloor, if_neg (by omega)]
        exact ⟨secondHighestGo w.id 0 bs + w.autoIncrementCents, rfl⟩

/-- Structural validity of an input bidder list (what the upstream
validator guarantees): positive starting bid and increment, starting bid
within the maximum. -/
def ValidInput (bs : List Bidder) : Prop :=
  ∀ b ∈ bs, 0 < b.startingBidCents ∧ 0 < b.autoIncrementCents ∧
    b.startingBidCents ≤ b.maxBidCents

/-- Total number of full increment steps available to the input (each
bidder contributes `⌊(maxBid − startingBid) / autoIncrement⌋`). -/
def totalSteps (bs : List Bidder) : Nat :=
  (bs.map (fun b =>
    (b.maxBidCents - b.startingBidCents).toNat / b.autoIncrementCents.toNat)).sum

/-- The preprocessed working set is valid and its potential is exactly
`totalSteps` of the input. -/
theorem preprocess_valid_potential {bs : List Bidder} (hv : ValidInput bs) :
    ValidState (sortByEntryTime (bs.map reinitBidder)) ∧
      potential (sortByEntryTime (bs.map reinitBidder)) = totalSteps bs := by
  have hperm : List.Perm (sortByEntryTime (bs.map reinitBidder)) (bs.map reinitBidder) :=
    List.perm_insertionSort _ _
  constructor
  · intro b' hb'
    have hb'' : b' ∈ bs.map reinitBidder := hperm.mem_iff.mp hb'
    obtain ⟨b, hb, rfl⟩ := List.mem_map.mp hb''
    obtain ⟨h1, h2, h3⟩ := hv b hb
    exact ⟨h1, h2, by simpa [reinitBidder, newBidder] using le_of_lt h1,
      by simpa [reinitBidder, newBidder] using h3⟩
  · unfold potential
    rw [(hperm.map stepsLeft).sum_eq, List.map_map]
    unfold totalSteps
    rfl

/-- Lengths are preserved by the round loop (from parameter
preservation). -/
theorem length_eq_of_paramTuple {l1 l2 : List Bidder}
    (h : l1.map paramTuple = l2.map paramTuple) : l1.length = l2.length := by
  have := congrArg List.length h
  simpa using this

/-- C4 amended: for a non-empty structurally valid bidder list whose total
step budget `totalSteps` (the sum over bidders of
`⌊(maxBid − startingBid)/autoIncrement⌋`) is below the round cap, the
round loop of `ProcessBids` terminates without a timeout error, and the
number of rounds executed is at most `totalSteps` — hence strictly below
the cap of 1000.  (The claim's per-bidder maximum
`ceil((maxBid−startingBid)/autoIncrement)` is NOT a bound: rounds can
alternate between bidders, see the counterexample.) -/
theorem processBids_round_bound (bs : List Bidder) (hne : bs ≠ [])
    (hv : ValidInput bs) (hsmall : totalSteps bs < 1000) :
    ∃ r, processBids bs = .ok r ∧ r.biddingRounds ≤ totalSteps bs ∧
      r.biddingRounds < 1000 := by
  obtain ⟨hvw, hpot⟩ := preprocess_valid_potential hv
  obtain ⟨rounds, stable, hloop, hbound, hvs, hparam⟩ :=
    roundLoopGo_bounded maxRounds 0 (sortByEntryTime (bs.map reinitBidder)) hvw
      (by rw [hpot]; unfold maxRounds; omega)
  rw [hpot] at hbound
  have hlen0 : ¬ bs.length = 0 := by
    intro h
    exact hne (List.length_eq_zero.mp h)
  have hstablene : stable ≠ [] := by
    intro h
    have hl := length_eq_of_paramTuple hparam
    rw [h] at hl
    simp only [List.length_nil] at hl
    have hsl : (sortByEntryTime (bs.map reinitBidder)).length = bs.length := by
      unfold sortByEntryTime
      rw [(List.perm_insertionSort _ _).length_eq]
      simp
    omega
  obtain ⟨w, hwin, hwmem⟩ := findWinner_isOk hstablene
    (fun b hb => (hvs b hb).2.2.1)
  obtain ⟨v, hcalc⟩ := calculateMinimumWinningBid_isOk hwmem (hvs w hwmem).1
  refine ⟨⟨some w, v, bs.length, rounds, stable⟩, ?_,
    show rounds ≤ totalSteps bs by omega, show rounds < 1000 by omega⟩
  simp only [processBids, if_neg hlen0, hloop]
  rw [if_neg (show ¬ maxRounds ≤ rounds by unfold maxRounds; omega)]
  simp only [hwin, hcalc]

/-- The claim's per-bidder bound: `ceil((maxBid − startingBid) /
autoIncrement)` in minor units. -/
def ceilSteps (b : Bidder) : Nat :=
  ((b.maxBidCents - b.startingBidCents).toNat + (b.autoIncrementCents.toNat - 1)) /
    b.autoIncrementCents.toNat

set_option maxRecDepth 400000 in
/-- C4 counterexample.  First conjunct: the valid pair (start 10, max 100,
step 2) and (start 11, max 100, step 2) makes the round loop run 89 rounds,
while the claimed bound `max ceilSteps = 45`; the bidders alternate, each
round incrementing only the one strictly below the round maximum.  Second
conjunct: the valid pair (start 1, max 3000, step 2) and (start 2, max
3000, step 2) drives the loop into the 1000-round cap, so `ProcessBids`
returns a timeout error on a valid bidder set. -/
theorem round_bound_counterexample :
    ((processBids [⟨"a", "Ann", 10, 100, 2, 0, 0, true⟩,
        ⟨"b", "Ben", 11, 100, 2, 0, 1, true⟩]).map (fun r => r.biddingRounds) =
      .ok 89 ∧
     max (ceilSteps ⟨"a", "Ann", 10, 100, 2, 0, 0, true⟩)
        (ceilSteps ⟨"b", "Ben", 11, 100, 2, 0, 1, true⟩) = 45 ∧
     ValidInput [⟨"a", "Ann", 10, 100, 2, 0, 0, true⟩,
        ⟨"b", "Ben", 11, 100, 2, 0, 1, true⟩] ∧
     ¬ (89 : Nat) ≤ 45) ∧
    (processBids [⟨"a", "Ann", 1, 3000, 2, 0, 0, true⟩,
        ⟨"b", "Ben", 2, 3000, 2, 0, 1, true⟩] =
      .error (.timeout "bidding process exceeded maximum rounds") ∧
     ValidInput [⟨"a", "Ann", 1, 3000, 2, 0, 0, true⟩,
        ⟨"b", "Ben", 2, 3000, 2, 0, 1, true⟩]) :=
  ⟨⟨rfl, rfl, by unfold ValidInput; decide, by decide⟩,
   rfl, by unfold ValidInput; decide⟩

/-- Witness for `processBids_round_bound` at a concrete two-bidder
input. -/
theorem processBids_round_bound_witness :
    ([⟨"a", "Alice", 10000, 30000, 2500, 0, 0, true⟩,
      ⟨"b", "Bob", 11000, 25000, 2000, 0, 1, true⟩] : List Bidder) ≠ [] ∧
    ValidInput [⟨"a", "Alice", 10000, 30000, 2500, 0, 0, true⟩,
      ⟨"b", "Bob", 11000, 25000, 2000, 0, 1, true⟩] ∧
    totalSteps [⟨"a", "Alice", 10000, 30000, 2500, 0, 0, true⟩,
      ⟨"b", "Bob", 11000, 25000, 2000, 0, 1, true⟩] < 1000 ∧
    ∃ r, processBids [⟨"a", "Alice", 10000, 30000, 2500, 0, 0, true⟩,
        ⟨"b", "Bob", 11000, 25000, 2000, 0, 1, true⟩] = .ok r ∧
      r.biddingRounds ≤ totalSteps [⟨"a", "Alice", 10000, 30000, 2500, 0, 0, true⟩,
        ⟨"b", "Bob", 11000, 25000, 2000, 0, 1, true⟩] ∧
      r.biddingRounds < 1000 :=
  ⟨by simp, by unfold ValidInput; decide, by decide,
    processBids_round_bound _ (by simp) (by unfold ValidInput; decide) (by decide)⟩

/-! ### The minimum-winning-bid formula -/

/-- The second-highest scan returns the maximum of the accumulator and the
maximum bids of the non-winner entries: it is bounded below by the
accumulator, attained by the accumulator or a non-winner entry, and bounds
every non-winner entry. -/
theorem secondHighestGo_spec (wid : String) :
    ∀ (l : List Bidder) (acc : Int),
      acc ≤ secondHighestGo wid acc l ∧
      (secondHighestGo wid acc l = acc ∨
        ∃ b ∈ l, ¬ b.id = wid ∧ b.maxBidCents = secondHighestGo wid acc l) ∧
      ∀ b ∈ l, ¬ b.id = wid → b.maxBidCents ≤ secondHighestGo wid acc l := by
  intro l
  induction l with
  | nil => exact fun acc => ⟨le_refl _, Or.inl rfl, by simp⟩
  | cons b rest ih =>
    intro acc
    by_cases hid : b.id = wid
    · obtain ⟨h1, h2, h3⟩ := ih acc
      refine ⟨?_, ?_, ?_⟩
      · simpa [secondHighestGo, hid] using h1
      · simp only [secondHighestGo, if_pos hid]
        rcases h2 with h2 | ⟨c, hc, hcid, hceq⟩
        · exact Or.inl h2
        · exact Or.inr ⟨c, by simp [hc], hcid, hceq⟩
      · intro c hc hcid
        simp only [secondHighestGo, if_pos hid]
        rcases List.mem_cons.mp hc with rfl | hc
        · exact absurd hid hcid
        · exact h3 c hc hcid
    · simp only [secondHighestGo, if_neg hid]
      by_cases hlt : acc < b.maxBidCents
      · rw [if_pos hlt]
        obtain ⟨h1, h2, h3⟩ := ih b.maxBidCents
        refine ⟨le_trans (le_of_lt hlt) h1, ?_, ?_⟩
        · rcases h2 with h2 | ⟨c, hc, hcid, hceq⟩
          · exact Or.inr ⟨b, by simp, hid, h2.symm⟩
          · exact Or.inr ⟨c, by simp [hc], hcid, hceq⟩
        · intro c hc hcid
          rcases List.mem_cons.mp hc with rfl | hc
          · exact h1
          · exact h3 c hc hcid
      · rw [if_neg hlt]
        obtain ⟨h1, h2, h3⟩ := ih acc
        refine ⟨h1, ?_, ?_⟩
        · rcases h2 with h2 | ⟨c, hc, hcid, hceq⟩
          · exact Or.inl h2
          · exact Or.inr ⟨c, by simp [hc], hcid, hceq⟩
        · intro c hc hcid
          rcases List.mem_cons.mp hc with rfl | hc
          · exact le_trans (le_of_not_lt hlt) h1
          · exact h3 c hc hcid

/-- When every entry carries the winner's id the scan returns its
accumulator unchanged. -/
theorem secondHighestGo_all_winner (wid : String) :
    ∀ (l : List Bidder) (acc : Int), (∀ b ∈ l, b.id = wid) →
      secondHighestGo wid acc l = acc := by
  intro l
  induction l with
  | nil => exact fun _ _ => rfl
  | cons b rest ih =>
    intro acc h
    have hb : b.id = wid := h b (by simp)
    simp only [secondHighestGo, if_pos hb]
    exact ih acc (fun c hc => h c (by simp [hc]))

/-- Inversion of a successful `CalculateMinimumWinningBidCents` call: the
returned value is the starting bid when the scan yields 0, and otherwise
the scan value plus the winner's increment clamped into
`[startingBid, maxBid]`. -/
theorem calculateMinimumWinningBid_inversion {bs : List Bidder} {w : Bidder} {v : Int}
    (hok : calculateMinimumWinningBidCents bs w = .ok v) :
    (secondHighestGo w.id 0 bs = 0 → v = w.startingBidCents) ∧
    (¬ secondHighestGo w.id 0 bs = 0 →
      v = max w.startingBidCents
            (min w.maxBidCents (secondHighestGo w.id 0 bs + w.autoIncrementCents))) := by
  by_cases hlen : bs.length = 0
  · rw [calculateMinimumWinningBidCents, if_pos hlen] at hok
    cases hok
  · rw [calculateMinimumWinningBidCents, if_neg hlen] at hok
    by_cases hany : (!(bs.any fun b => b.id == w.id)) = true
    · rw [if_pos hany] at hok
      cases hok
    · rw [if_neg hany] at hok
      by_cases hzero : secondHighestGo w.id 0 bs = 0
      · rw [if_pos hzero] at hok
        cases hok
        exact ⟨fun _ => rfl, fun h => absurd hzero h⟩
      · rw [if_neg hzero] at hok
        dsimp only at hok
        refine ⟨fun h => absurd h hzero, fun _ => ?_⟩
        by_cases hcap : w.maxBidCents < secondHighestGo w.id 0 bs + w.autoIncrementCents
        · rw [if_pos hcap] at hok
          have hmin : min w.maxBidCents (secondHighestGo w.id 0 bs + w.autoIncrementCents) =
              w.maxBidCents := min_eq_left (le_of_lt hcap)
          by_cases hfloor : w.maxBidCents < w.startingBidCents
          · rw [if_pos hfloor] at hok
            by_cases hneg : w.startingBidCents < 0
            · rw [if_pos hneg] at hok; cases hok
            · rw [if_neg hneg] at hok
              cases hok
              rw [hmin, max_eq_left (le_of_lt hfloor)]
          · rw [if_neg hfloor] at hok
            by_cases hneg : w.maxBidCents < 0
            · rw [if_pos hneg] at hok; cases hok
            · rw [if_neg hneg] at hok
              cases hok
              rw [hmin, max_eq_right (le_of_not_lt hfloor)]
        · rw [if_neg hcap] at hok
          have hmin : min w.maxBidCents (secondHighestGo w.id 0 bs + w.autoIncrementCents) =
              secondHighestGo w.id 0 bs + w.autoIncrementCents :=
            min_eq_right (le_of_not_lt hcap)
          by_cases hfloor : secondHighestGo w.id 0 bs + w.autoIncrementCents <
              w.startingBidCents
          · rw [if_pos hfloor] at hok
            by_cases hneg : w.startingBidCents < 0
            · rw [if_pos hneg] at hok; cases hok
            · rw [if_neg hneg] at hok
              cases hok
              rw [hmin, max_eq_left (le_of_lt hfloor)]
          · rw [if_neg hfloor] at hok
            by_cases hneg : secondHighestGo w.id 0 bs + w.autoIncrementCents < 0
            · rw [if_pos hneg] at hok; cases hok
            · rw [if_neg hneg] at hok
              cases hok
              rw [hmin, max_eq_right (le_of_not_lt hfloor)]

/-- A successful round loop on a valid state preserves validity and the
bidder parameters (for any fuel and any way the loop ended). -/
theorem roundLoopGo_params :
    ∀ (fuel rounds : Nat) (bs : List Bidder) (rounds' : Nat) (bs' : List Bidder),
      ValidState bs → roundLoopGo fuel rounds bs = .ok (rounds', bs') →
      bs'.map paramTuple = bs.map paramTuple ∧ ValidState bs' := by
  intro fuel
  induction fuel with
  | zero =>
    intro rounds bs rounds' bs' hv hok
    simp only [roundLoopGo] at hok
    cases hok
    exact ⟨rfl, hv⟩
  | succ fuel ih =>
    intro rounds bs rounds' bs' hv hok
    obtain ⟨any, bs2, hinc, hv2, hparam2, -, -⟩ := incrementBids_ok_of_valid hv
    simp only [roundLoopGo, hinc] at hok
    rcases hany : any with _ | _
    · rw [hany] at hok
      dsimp only at hok
      cases hok
      exact ⟨hparam2, hv2⟩
    · rw [hany] at hok
      dsimp only at hok
      obtain ⟨hp, hv'⟩ := ih (rounds + 1) bs2 rounds' bs' hv2 hok
      exact ⟨hp.trans hparam2, hv'⟩

/-- Inversion of a successful `ProcessBids` call on a nonempty input:
recover the loop result, the winner search and the payment calculation. -/
theorem processBids_ok_inversion {bs : List Bidder} {r : BidResult}
    (hne : ¬ bs.length = 0) (hok : processBids bs = .ok r) :
    ∃ rounds stable,
      roundLoopGo maxRounds 0 (sortByEntryTime (bs.map reinitBidder)) =
        .ok (rounds, stable) ∧
      r.biddingRounds = rounds ∧ r.allBidders = stable ∧
      ((findWinner stable = .ok none ∧ r.winner = none) ∨
       (∃ w, findWinner stable = .ok (some w) ∧ r.winner = some w ∧
         calculateMinimumWinningBidCents stable w = .ok r.winningBidCents)) := by
  simp only [processBids, if_neg hne] at hok
  rcases hloop : roundLoopGo maxRounds 0 (sortByEntryTime (bs.map reinitBidder)) with e |
    p
  · rw [hloop] at hok
    cases hok
  · obtain ⟨rounds, stable⟩ := p
    rw [hloop] at hok
    dsimp only at hok
    by_cases htime : maxRounds ≤ rounds
    · rw [if_pos htime] at hok
      cases hok
    · rw [if_neg htime] at hok
      rcases hwin : findWinner stable with e | w?
      · rw [hwin] at hok
        cases hok
      · rw [hwin] at hok
        rcases hw? : w? with _ | w
        · rw [hw?] at hwin hok
          dsimp only at hok
          cases hok
          exact ⟨rounds, stable, rfl, rfl, rfl, Or.inl ⟨hwin, rfl⟩⟩
        · rw [hw?] at hwin hok
          dsimp only at hok
          rcases hcalc : calculateMinimumWinningBidCents stable w with e | v
          · rw [hcalc] at hok
            cases hok
          · rw [hcalc] at hok
            cases hok
            exact ⟨rounds, stable, rfl, rfl, rfl,
              Or.inr ⟨w, hwin, rfl, hcalc⟩⟩

/-- Parameter-level membership transfer between two bidder lists whose
parameter images are permutations of each other. -/
theorem exists_same_params {l1 l2 : List Bidder}
    (h : List.Perm (l1.map paramTuple) (l2.map paramTuple)) :
    ∀ b ∈ l1, ∃ c ∈ l2, paramTuple c = paramTuple b := by
  intro b hb
  have hmem : paramTuple b ∈ l1.map paramTuple := List.mem_map_of_mem paramTuple hb
  have hmem2 : paramTuple b ∈ l2.map paramTuple := h.mem_iff.mp hmem
  obtain ⟨c, hc, hceq⟩ := List.mem_map.mp hmem2
  exact ⟨c, hc, hceq⟩

/-- The parameter image of the stabilised working set is a permutation of
the input's parameter image. -/
theorem stable_params_perm {bs stable : List Bidder}
    (hparam : stable.map paramTuple =
      (sortByEntryTime (bs.map reinitBidder)).map paramTuple) :
    List.Perm (stable.map paramTuple) (bs.map paramTuple) := by
  rw [hparam]
  have h1 : List.Perm ((sortByEntryTime (bs.map reinitBidder)).map paramTuple)
      ((bs.map reinitBidder).map paramTuple) :=
    (List.perm_insertionSort _ _).map paramTuple
  have h2 : (bs.map reinitBidder).map paramTuple = bs.map paramTuple := by
    rw [List.map_map]
    rfl
  rw [h2] at h1
  exact h1

/-- Field-wise reading of a parameter-tuple equality. -/
theorem paramTuple_fields {b c : Bidder} (h : paramTuple c = paramTuple b) :
    c.id = b.id ∧ c.startingBidCents = b.startingBidCents ∧
    c.maxBidCents = b.maxBidCents ∧ c.autoIncrementCents = b.autoIncrementCents := by
  simp only [paramTuple, Prod.mk.injEq] at h
  exact h

/-- C1: for a non-empty valid input, whenever `ProcessBids` succeeds with a
winner `w`, the winning amount (minor units) is `w`'s starting bid if every
input bidder carries the winner's id (no other bidders); otherwise it is
`S + w.autoIncrement` clamped to at most `w.maxBid` and at least
`w.startingBid`, where `S` is the highest `maxBid` among the input bidders
with an id different from the winner's (characterised as attained and an
upper bound). -/
theorem minimum_winning_bid_formula (bs : List Bidder) (r : BidResult) (w : Bidder)
    (hne : bs ≠ []) (hv : ValidInput bs)
    (hok : processBids bs = .ok r) (hw : r.winner = some w) :
    ((∀ b ∈ bs, b.id = w.id) → r.winningBidCents = w.startingBidCents) ∧
    ((∃ b ∈ bs, ¬ b.id = w.id) →
      ∃ S, (∃ b ∈ bs, ¬ b.id = w.id ∧ b.maxBidCents = S) ∧
        (∀ b ∈ bs, ¬ b.id = w.id → b.maxBidCents ≤ S) ∧
        r.winningBidCents =
          max w.startingBidCents (min w.maxBidCents (S + w.autoIncrementCents))) := by
  have hlen : ¬ bs.length = 0 := fun h => hne (List.length_eq_zero.mp h)
  obtain ⟨rounds, stable, hloop, -, -, hbranch⟩ := processBids_ok_inversion hlen hok
  have hvw : ValidState (sortByEntryTime (bs.map reinitBidder)) :=
    (preprocess_valid_potential hv).1
  obtain ⟨hparam, hvs⟩ := roundLoopGo_params maxRounds 0 _ rounds stable hvw hloop
  have hperm : List.Perm (stable.map paramTuple) (bs.map paramTuple) :=
    stable_params_perm hparam
  rcases hbranch with ⟨-, hwn⟩ | ⟨w', hwin, hww, hcalc⟩
  · rw [hw] at hwn
    cases hwn
  · rw [hw] at hww
    obtain rfl : w = w' := Option.some.inj hww
    obtain ⟨hzero_case, hnonzero_case⟩ := calculateMinimumWinningBid_inversion hcalc
    obtain ⟨hlow, hatt, hbound⟩ := secondHighestGo_spec w.id stable 0
    constructor
    · intro hall
      have halls : ∀ b ∈ stable, b.id = w.id := by
        intro b hb
        obtain ⟨c, hc, hceq⟩ := exists_same_params hperm b hb
        obtain ⟨hcid, -, -, -⟩ := paramTuple_fields hceq
        rw [← hcid]
        exact hall c hc
      exact hzero_case (secondHighestGo_all_winner w.id stable 0 halls)
    · rintro ⟨b0, hb0, hb0id⟩
      obtain ⟨c0, hc0, hc0eq⟩ := exists_same_params hperm.symm b0 hb0
      obtain ⟨hc0id, -, hc0max, -⟩ := paramTuple_fields hc0eq
      have hc0nid : ¬ c0.id = w.id := by rw [hc0id]; exact hb0id
      have hb0pos : 0 < b0.maxBidCents :=
        lt_of_lt_of_le (hv b0 hb0).1 (hv b0 hb0).2.2
      have hSpos : 0 < secondHighestGo w.id 0 stable :=
        lt_of_lt_of_le (hc0max ▸ hb0pos) (hbound c0 hc0 hc0nid)
      have hSne : ¬ secondHighestGo w.id 0 stable = 0 := by omega
      refine ⟨secondHighestGo w.id 0 stable, ?_, ?_, hnonzero_case hSne⟩
      · rcases hatt with hatt | ⟨c1, hc1, hc1id, hc1max⟩
        · exact absurd hatt hSne
        · obtain ⟨d, hd, hdeq⟩ := exists_same_params hperm c1 hc1
          obtain ⟨hdid, -, hdmax, -⟩ := paramTuple_fields hdeq
          exact ⟨d, hd, by rw [hdid]; exact hc1id, by rw [hdmax]; exact hc1max⟩
      · intro b hb hbid
        obtain ⟨c, hc, hceq⟩ := exists_same_params hperm.symm b hb
        obtain ⟨hcid, -, hcmax, -⟩ := paramTuple_fields hceq
        have : ¬ c.id = w.id := by rw [hcid]; exact hbid
        rw [← hcmax]
        exact hbound c hc this

/-- Witness for `minimum_winning_bid_formula` at the two-bidder scenario
(start 100.00/110.00, max 300.00/250.00, step 25.00/20.00 dollars in minor
units): the winner is the first bidder and the payment is
250.00 + 25.00 = 275.00, i.e. 27500 minor units. -/
theorem minimum_winning_bid_formula_witness :
    ([⟨"a", "Alice", 10000, 30000, 2500, 0, 0, true⟩,
      ⟨"b", "Bob", 11000, 25000, 2000, 0, 1, true⟩] : List Bidder) ≠ [] ∧
    ValidInput [⟨"a", "Alice", 10000, 30000, 2500, 0, 0, true⟩,
      ⟨"b", "Bob", 11000, 25000, 2000, 0, 1, true⟩] ∧
    processBids [⟨"a", "Alice", 10000, 30000, 2500, 0, 0, true⟩,
        ⟨"b", "Bob", 11000, 25000, 2000, 0, 1, true⟩] =
      .ok ⟨some ⟨"a", "Alice", 10000, 30000, 2500, 15000, 0, true⟩, 27500, 2, 4,
        [⟨"a", "Alice", 10000, 30000, 2500, 15000, 0, true⟩,
         ⟨"b", "Bob", 11000, 25000, 2000, 15000, 1, true⟩]⟩ ∧
    (((∀ b ∈ ([⟨"a", "Alice", 10000, 30000, 2500, 0, 0, true⟩,
          ⟨"b", "Bob", 11000, 25000, 2000, 0, 1, true⟩] : List Bidder),
        b.id = "a") → (27500 : Int) = 10000) ∧
     ((∃ b ∈ ([⟨"a", "Alice", 10000, 30000, 2500, 0, 0, true⟩,
          ⟨"b", "Bob", 11000, 25000, 2000, 0, 1, true⟩] : List Bidder),
        ¬ b.id = "a") →
       ∃ S, (∃ b ∈ ([⟨"a", "Alice", 10000, 30000, 2500, 0, 0, true⟩,
              ⟨"b", "Bob", 11000, 25000, 2000, 0, 1, true⟩] : List Bidder),
              ¬ b.id = "a" ∧ b.maxBidCents = S) ∧
         (∀ b ∈ ([⟨"a", "Alice", 10000, 30000, 2500, 0, 0, true⟩,
              ⟨"b", "Bob", 11000, 25000, 2000, 0, 1, true⟩] : List Bidder),
              ¬ b.id = "a" → b.maxBidCents ≤ S) ∧
         (27500 : Int) = max 10000 (min 30000 (S + 2500)))) :=
  ⟨by simp, by unfold ValidInput; decide, rfl,
    minimum_winning_bid_formula
      [⟨"a", "Alice", 10000, 30000, 2500, 0, 0, true⟩,
       ⟨"b", "Bob", 11000, 25000, 2000, 0, 1, true⟩]
      ⟨some ⟨"a", "Alice", 10000, 30000, 2500, 15000, 0, true⟩, 27500, 2, 4,
        [⟨"a", "Alice", 10000, 30000, 2500, 15000, 0, true⟩,
         ⟨"b", "Bob", 11000, 25000, 2000, 15000, 1, true⟩]⟩
      ⟨"a", "Alice", 10000, 30000, 2500, 15000, 0, true⟩
      (by simp) (by unfold ValidInput; decide) rfl rfl⟩

end Auction
